import Mathlib

/-!
Verification development for the BROZ repository: a shallow embedding of
the matching engine (`broz-matching/src/matching/algorithm.rs`,
`queue.rs`, `history.rs`, `socket/handlers.rs`), the SFU room and publish
operations (`WEB_RTC/src/room.rs`, `sfu.rs`), the quality analytics MOS
estimate (`WEB_RTC/src/analytics.rs`) and the `.lrr` recording format
(`WEB_RTC/src/recording.rs`).

Modelling conventions:
* `f64` arithmetic is embedded as exact rational arithmetic (`ℚ`);
* the transcendental `f64` functions used by the geo-distance component
  (`sin`, `cos`, `asin`, `sqrt`, `exp`) and the constant `π` are
  parameters of the model, collected in the structure `TransFns`, so that
  every definition stays computable;
* machine integers `i64`/`i32` are embedded as `ℤ`, `u8`/`u16`/`u32` as
  `ℕ` with explicit `% 2^w` at the points where the source casts;
* a byte is a `ℕ` together with the side condition `< 256` where needed;
* effectful reads of the wall clock (`chrono::Utc::now()`) become an
  explicit `now` parameter.
-/

namespace Broz

/-- Parameters standing for the `f64` transcendental functions and `π`
used by `haversine_km` and `distance_score`. -/
structure TransFns where
  pi : ℚ
  sin : ℚ → ℚ
  cos : ℚ → ℚ
  asin : ℚ → ℚ
  sqrt : ℚ → ℚ
  exp : ℚ → ℚ

/-- `f64::to_radians`: `x * (π / 180)`. -/
def TransFns.toRadians (tf : TransFns) (x : ℚ) : ℚ := x * (tf.pi / 180)

/-- `MatchFilters` from `matching/algorithm.rs`. -/
structure MatchFilters where
  country : Option String
  age_min : Option ℤ
  age_max : Option ℤ
  kinks : List String
deriving DecidableEq, Repr

/-- `QueueUser` from `matching/algorithm.rs`. -/
structure QueueUser where
  user_id : ℕ
  display_name : String
  bio : Option String
  age : ℤ
  country : Option String
  kinks : List String
  profile_photo_url : Option String
  filters : MatchFilters
  latitude : Option ℚ
  longitude : Option ℚ
  joined_at : ℤ
deriving DecidableEq, Repr

/-- `PairHistory` from `matching/history.rs`. -/
structure PairHistory where
  times_matched : ℕ
  last_matched_at : ℤ
  total_duration_secs : ℕ
  likes : ℕ
  follows : Bool
  messages : ℕ
  skips : ℕ
deriving DecidableEq, Repr

/-- `MatchScore` from `matching/algorithm.rs`. -/
structure MatchScore where
  score : ℚ
  passes_filters : Bool
deriving DecidableEq, Repr

-- Weights v3 from `matching/algorithm.rs`.
def W_COUNTRY : ℚ := 0.25
def W_AGE : ℚ := 0.25
def W_KINKS : ℚ := 0.20
def W_HISTORY : ℚ := 0.15
def W_FRESHNESS : ℚ := 0.10
def W_DISTANCE : ℚ := 0.05

/-- `MatchPhase` from `matching/algorithm.rs`. -/
inductive MatchPhase where
  | Strict
  | Normal
  | Relaxed
  | Desperate
deriving DecidableEq, Repr

/-- The `u8` discriminant of `MatchPhase` (used by `phase as u8`). -/
def MatchPhase.toU8 : MatchPhase → ℕ
  | .Strict => 0
  | .Normal => 1
  | .Relaxed => 2
  | .Desperate => 3

/-- `MatchPhase::from_wait_ms`. -/
def MatchPhase.from_wait_ms (wait_ms : ℤ) : MatchPhase :=
  if 0 ≤ wait_ms ∧ wait_ms ≤ 499 then .Strict
  else if 500 ≤ wait_ms ∧ wait_ms ≤ 999 then .Normal
  else if 1000 ≤ wait_ms ∧ wait_ms ≤ 2999 then .Relaxed
  else .Desperate

/-- `MatchPhase::min_match_score`. -/
def MatchPhase.min_match_score : MatchPhase → ℚ
  | .Strict => 0.10
  | .Normal => 0.05
  | .Relaxed => 0.02
  | .Desperate => 0.0

/-- `pair_modifier` from `matching/algorithm.rs`, with the wall clock
passed in as `now`. -/
def pair_modifier (now : ℤ) (history : PairHistory) : ℚ :=
  if history.times_matched = 0 then 1.05
  else
    let stability : ℚ := (history.likes : ℚ) * 2.0
      + (if history.follows then 3.0 else 0.0)
      + (history.messages : ℚ) * 0.1
      + (if 120 < history.total_duration_secs then 1.5 else 0.0)
      - (history.skips : ℚ) * 2.0
    let elapsed_hours : ℚ := ((now - history.last_matched_at : ℤ) : ℚ) / 3600000
    let denom : ℚ := 9.0 * max |stability| 1.0
    let retrievability : ℚ := 1.0 / (1.0 + elapsed_hours / denom)
    if 0 < stability then 0.85 + 0.20 * (1.0 - retrievability)
    else 0.30 + 0.70 * (1.0 - retrievability)

/-- `freshness_score` from `matching/algorithm.rs`. -/
def freshness_score (candidate_wait_ms : ℤ) : ℚ :=
  min (0.5 + (candidate_wait_ms : ℚ) / 6000.0) 1.0

/-- `haversine_km` from `matching/algorithm.rs`. -/
def haversine_km (tf : TransFns) (lat1 lng1 lat2 lng2 : ℚ) : ℚ :=
  let R : ℚ := 6371.0
  let d_lat := tf.toRadians (lat2 - lat1)
  let d_lng := tf.toRadians (lng2 - lng1)
  let a := tf.sin (d_lat / 2.0) ^ 2
    + tf.cos (tf.toRadians lat1) * tf.cos (tf.toRadians lat2) * tf.sin (d_lng / 2.0) ^ 2
  let c := 2.0 * tf.asin (tf.sqrt a)
  R * c

/-- `distance_score` from `matching/algorithm.rs`. -/
def distance_score (tf : TransFns) (user_a user_b : QueueUser) : ℚ :=
  match user_a.latitude, user_a.longitude, user_b.latitude, user_b.longitude with
  | some lat1, some lng1, some lat2, some lng2 =>
      let km := haversine_km tf lat1 lng1 lat2 lng2
      max (tf.exp (-km / 200.0)) 0.05
  | _, _, _, _ => 0.5

/-- `if let Some(min) = _.age_min { if age < min { … } }` condition from
`age_score`. -/
def belowAgeMin (age : ℤ) : Option ℤ → Bool
  | some m => decide (age < m)
  | none => false

/-- `if let Some(max) = _.age_max { if age > max { … } }` condition from
`age_score`. -/
def aboveAgeMax (age : ℤ) : Option ℤ → Bool
  | some m => decide (m < age)
  | none => false

/-- `age_score` from `matching/algorithm.rs`. -/
def age_score (age_a age_b : ℤ) (filters_a filters_b : MatchFilters) : ℚ :=
  let diff : ℚ := (|age_a - age_b| : ℤ)
  let base := max (1.0 - diff / 42.0) 0.05
  let penalty : ℚ :=
    (if belowAgeMin age_a filters_b.age_min then 0.5 else 1.0)
    * (if aboveAgeMax age_a filters_b.age_max then 0.5 else 1.0)
    * (if belowAgeMin age_b filters_a.age_min then 0.5 else 1.0)
    * (if aboveAgeMax age_b filters_a.age_max then 0.5 else 1.0)
  base * penalty

/-- `passes_filters` from `matching/algorithm.rs`: only country can block,
and only in the `Strict` phase, and only when both the filter country and
the user's declared country are present. -/
def passes_filters (user : QueueUser) (filters : MatchFilters) (phase : MatchPhase) : Bool :=
  if phase = MatchPhase.Strict then
    match filters.country, user.country with
    | some country, some user_country => country == user_country
    | _, _ => true
  else true

/-- The governing phase of `calculate_score`: the more lenient of the
two (`if (phase_a as u8) >= (phase_b as u8) { phase_a } else { phase_b }`). -/
def governingPhase (phase_a phase_b : MatchPhase) : MatchPhase :=
  if phase_b.toU8 ≤ phase_a.toU8 then phase_a else phase_b

/-- The `kinks_overlap` component of `calculate_score`: intersection
count over the larger list's length, 0.5 when both lists are empty. -/
def kinks_overlap (ka kb : List String) : ℚ :=
  if ka.isEmpty && kb.isEmpty then 0.5
  else
    let intersection := (ka.filter (fun k => kb.contains k)).length
    let max_len := max (max ka.length kb.length) 1
    (intersection : ℚ) / (max_len : ℚ)

/-- The `country_match` component of `calculate_score`: 1.0 for the same
declared country, 0.7 when one is unknown, 0.3 otherwise. -/
def country_match : Option String → Option String → ℚ
  | some a, some b => if a = b then 1.0 else 0.3
  | _, _ => 0.7

/-- `calculate_score` from `matching/algorithm.rs`, with the wall clock
passed in as `now` (the body's `let`-bound components are the named
definitions above). -/
def calculate_score (tf : TransFns) (now : ℤ) (user_a user_b : QueueUser)
    (phase_a phase_b : MatchPhase) (history : PairHistory) : MatchScore :=
  -- Use the more lenient phase (higher wait = more relaxed)
  let phase := governingPhase phase_a phase_b
  let a_passes := passes_filters user_a user_b.filters phase
  let b_passes := passes_filters user_b user_a.filters phase
  if ¬a_passes || ¬b_passes then
    { score := 0.0, passes_filters := false }
  else
    { score := W_COUNTRY * country_match user_a.country user_b.country
        + W_AGE * age_score user_a.age user_b.age user_a.filters user_b.filters
        + W_KINKS * kinks_overlap user_a.kinks user_b.kinks
        + W_HISTORY * pair_modifier now history
        + W_FRESHNESS * freshness_score
            ((max (now - user_a.joined_at) 0 + max (now - user_b.joined_at) 0) / 2)
        + W_DISTANCE * distance_score tf user_a user_b,
      passes_filters := true }

/-- The phase of a queue user at time `now`, as computed in
`try_match_inner` (`socket/handlers.rs`): `from_wait_ms((now − joined_at).max(0))`. -/
def phaseOf (now : ℤ) (u : QueueUser) : MatchPhase :=
  MatchPhase.from_wait_ms (max (now - u.joined_at) 0)

/-- `f64::clamp(lo, hi)`: requires `lo ≤ hi`, returns `lo` below `lo`,
`hi` above `hi`, the value itself otherwise. -/
def rustClamp (x lo hi : ℚ) : ℚ :=
  if x < lo then lo else if hi < x then hi else x

/-- `estimate_mos` from `WEB_RTC/src/analytics.rs`. -/
def estimate_mos (delay_ms packet_loss_pct : ℚ) : ℚ :=
  let d := delay_ms
  let h : ℚ := if 177.3 < d then 1.0 else 0.0
  let idel := 0.024 * d + 0.11 * (d - 177.3) * h
  let codec_ie : ℚ := 0.0
  let bpl : ℚ := 25.1
  let ppl := packet_loss_pct
  let ie := codec_ie + (95.0 - codec_ie) * ppl / (ppl + bpl)
  let r := rustClamp (93.2 - idel - ie) 0.0 100.0
  if r < 6.5 then 1.0
  else rustClamp (1.0 + 0.035 * r + r * (r - 60.0) * (100.0 - r) * 7e-6) 1.0 5.0

/-- The MOS formula exactly as the specification words it (section 4.E,
step 4): `Id = 0.024·d + 0.11·(d−177.3)·step(d−177.3)`;
`Ie = 95·ppl/(ppl+25.1)`; `R = clamp(93.2 − Id − Ie, 0, 100)`; then if
`R < 6.5 → MOS = 1.0`, else
`MOS = clamp(1 + 0.035·R + R·(R−60)·(100−R)·7e−6, 1.0, 5.0)`. -/
def mos_spec (d ppl : ℚ) : ℚ :=
  let step : ℚ := if 0 < d - 177.3 then 1.0 else 0.0
  let idel := 0.024 * d + 0.11 * (d - 177.3) * step
  let ie := 95.0 * ppl / (ppl + 25.1)
  let r := rustClamp (93.2 - idel - ie) 0.0 100.0
  if r < 6.5 then 1.0
  else rustClamp (1.0 + 0.035 * r + r * (r - 60.0) * (100.0 - r) * 7e-6) 1.0 5.0

-- ───────────────────────── LRR recording format ─────────────────────────

/-- `LrrRecord` from `WEB_RTC/src/recording.rs`. -/
structure LrrRecord where
  relative_timestamp_us : ℕ
  track_kind : ℕ
  rtp_data : List ℕ
deriving DecidableEq, Repr

/-- Little-endian `u16` byte encoding (`put_u16_le`). -/
def u16_le (n : ℕ) : List ℕ := [n % 256, n / 256 % 256]

/-- Little-endian `u32` byte encoding (`put_u32_le`). -/
def u32_le (n : ℕ) : List ℕ :=
  [n % 256, n / 256 % 256, n / 65536 % 256, n / 16777216 % 256]

/-- `u16::from_le_bytes`. -/
def from_le2 (b0 b1 : ℕ) : ℕ := b0 + 256 * b1

/-- `u32::from_le_bytes`. -/
def from_le4 (b0 b1 b2 b3 : ℕ) : ℕ := b0 + 256 * b1 + 65536 * b2 + 16777216 * b3

/-- The bytes appended to the write buffer for one record by
`recording_writer_task` (`recording.rs`): `relative_us u32 LE`,
`track_kind u8`, `pkt_len = rtp_bytes.len() as u16` LE, then the raw RTP
bytes. -/
def writeLrrRecord (r : LrrRecord) : List ℕ :=
  u32_le r.relative_timestamp_us ++ [r.track_kind % 256]
    ++ u16_le r.rtp_data.length ++ r.rtp_data

/-- The byte stream `recording_writer_task` produces after the 16-byte
header for a sequence of records (batching/flushing does not change the
byte sequence written). -/
def writeLrrRecords : List LrrRecord → List ℕ
  | [] => []
  | r :: rs => writeLrrRecord r ++ writeLrrRecords rs

/-- The record-scanning loop of `read_lrr_records` (`recording.rs`),
expressed on the byte suffix that remains at the current offset. -/
def readLrrGo (data : List ℕ) : List LrrRecord :=
  if 7 ≤ data.length then
    let relative_ts := from_le4 (data.getD 0 0) (data.getD 1 0) (data.getD 2 0) (data.getD 3 0)
    let track_kind := data.getD 4 0
    let pkt_len := from_le2 (data.getD 5 0) (data.getD 6 0)
    if 7 + pkt_len ≤ data.length then
      { relative_timestamp_us := relative_ts, track_kind := track_kind,
        rtp_data := (data.drop 7).take pkt_len } :: readLrrGo (data.drop (7 + pkt_len))
    else []
  else []
termination_by data.length
decreasing_by simp_all; omega

/-- `read_lrr_records` from `recording.rs`: skip the 16-byte header, then
scan records while a complete 7-byte record header and a complete payload
remain. -/
def read_lrr_records (data : List ℕ) : List LrrRecord :=
  readLrrGo (data.drop 16)

/-- The `pkt_len` field a 7-byte record header declares (used to state
what a trailing partial record is). -/
def lrrDeclaredLen (rest : List ℕ) : ℕ := from_le2 (rest.getD 5 0) (rest.getD 6 0)

-- ───────────────────────── SFU rooms and publish ─────────────────────────

/-- `RoomType` from `WEB_RTC/src/room.rs`. -/
inductive RoomType where
  | Broadcast
  | Call
  | Conference
deriving DecidableEq, Repr

/-- The `max_publishers` derivation in `Room::new` (`room.rs`). -/
def maxPublishersOf : RoomType → ℕ
  | .Broadcast => 1
  | .Call => 2
  | .Conference => 50

/-- A peer ID carries the screen-share marker `format!("{peer_id}-screen")`
used by `sfu_publish` (`sfu.rs`). -/
def hasScreenSuffix (s : String) : Bool :=
  "-screen".toList.isSuffixOf s.toList

/-- `HashMap::insert` on the key set of a room's publisher map: inserting
an already-present peer ID replaces its publisher and leaves the key set
unchanged. -/
def insertKey (pubs : List String) (k : String) : List String :=
  if k ∈ pubs then pubs else pubs ++ [k]

/-- The error codes of `sfu_publish` relevant to this development
(`error.rs` / `sfu.rs`). -/
inductive ApiErr where
  | roleInsufficient
  | roomNotFound
  | roomFull
  | peerConnectionFailed
deriving DecidableEq, Repr

/-- The publisher-map effect of the insert stage of `sfu_publish`
(`sfu.rs` step 9): a screen share is inserted directly, bypassing the
limit; otherwise `Room::add_publisher` (`room.rs`) fails with
`room is full` when `pubs.len() >= max_publishers` and inserts
otherwise. -/
def roomPublish (maxPubs : ℕ) (pubs : List String) (sub : String)
    (isScreen : Bool) : Except ApiErr (List String) :=
  let effective_peer_id := if isScreen then sub ++ "-screen" else sub
  if !isScreen && decide (maxPubs ≤ pubs.length) then .error .roomFull
  else .ok (insertKey pubs effective_peer_id)

/-- A room as far as the publish-path claims are concerned. -/
structure RoomModel where
  room_type : RoomType
  max_publishers : ℕ
  publishers : List String
deriving DecidableEq, Repr

/-- Replace the room stored under `rid`. -/
def updateRoom (rooms : List (String × RoomModel)) (rid : String)
    (r : RoomModel) : List (String × RoomModel) :=
  rooms.map (fun p => if p.1 = rid then (rid, r) else p)

/-- The control flow of `sfu_publish` (`sfu.rs`) as a state transformer
on the room registry: token-role gate, room lookup, early
`can_publish` capacity check (skipped for screen shares), peer-connection
construction and SDP exchange (collapsed into the `pcOk` flag), then the
insert stage `roomPublish`. -/
def sfuPublishStep (rooms : List (String × RoomModel)) (role room_id sub : String)
    (isScreen pcOk : Bool) : Except ApiErr Unit × List (String × RoomModel) :=
  if !(role == "publish") && !(role == "call") then (.error .roleInsufficient, rooms)
  else
    match List.lookup room_id rooms with
    | none => (.error .roomNotFound, rooms)
    | some room =>
      if !isScreen && !(decide (room.publishers.length < room.max_publishers)) then
        (.error .roomFull, rooms)
      else if !pcOk then (.error .peerConnectionFailed, rooms)
      else
        match roomPublish room.max_publishers room.publishers sub isScreen with
        | .error e => (.error e, rooms)
        | .ok pubs' => (.ok (), updateRoom rooms room_id { room with publishers := pubs' })

/-- The publisher-ID sets of one room reachable through the publish
operations (`sfu_publish` inserts, including screen shares) and
publisher removal (`Room::remove_publisher`). -/
inductive RoomReachable (maxPubs : ℕ) : List String → Prop
  | init : RoomReachable maxPubs []
  | publish (pubs : List String) (sub : String) (isScreen : Bool) (pubs' : List String) :
      RoomReachable maxPubs pubs →
      roomPublish maxPubs pubs sub isScreen = .ok pubs' →
      RoomReachable maxPubs pubs'
  | remove (pubs : List String) (pid : String) :
      RoomReachable maxPubs pubs →
      RoomReachable maxPubs (pubs.erase pid)

/-- Number of non-screen publishers in a room. -/
def nonScreenCount (pubs : List String) : ℕ :=
  (pubs.filter (fun p => !hasScreenSuffix p)).length

-- ───────────────────────── Matching queue and pairing ─────────────────────

/-- `remove_from_queue` (`matching/queue.rs`): scan the queue in order,
remove the first member carrying the given user ID, report whether one
was removed. -/
def remove_from_queue : List QueueUser → ℕ → Bool × List QueueUser
  | [], _ => (false, [])
  | u :: rest, uid =>
    if u.user_id = uid then (true, rest)
    else
      let r := remove_from_queue rest uid
      (r.1, u :: r.2)

/-- The socket emissions of `try_match_inner` relevant to the pairing
protocol. -/
inductive SocketEvent where
  | searching (to_user : ℕ)
  | matchFound (to_user : ℕ) (match_id : ℕ) (partner : ℕ)
deriving DecidableEq, Repr

/-- The matching-engine state touched by the pairing tail of
`try_match_inner`: the Redis queue, the durable `match_sessions` rows,
the Redis active-pair records and pair cooldowns, and the socket
emissions. -/
structure MatchState where
  queue : List QueueUser
  sessions : List (ℕ × ℕ × ℕ)
  activePairs : List (ℕ × ℕ × ℕ)
  cooldowns : List (ℕ × ℕ)
  emitted : List SocketEvent
deriving DecidableEq, Repr

/-- The tail of `try_match_inner` (`socket/handlers.rs`) once a best
candidate is elected: double-remove from the queue; on a failed removal
re-insert whichever removal succeeded (`add_to_queue` appends at the
tail) and emit `searching`; on a database failure re-insert both; on
success create the session row, the active pair, the 5 s cooldown, and
emit `match-found` to both users with the session's ID. -/
def finalizeMatch (st : MatchState) (current_user partner : QueueUser)
    (dbOk : Bool) (new_id : ℕ) : MatchState :=
  let rs := remove_from_queue st.queue current_user.user_id
  let rp := remove_from_queue rs.2 partner.user_id
  if !rs.1 || !rp.1 then
    let q3 := if rs.1 then rp.2 ++ [current_user] else rp.2
    let q4 := if rp.1 then q3 ++ [partner] else q3
    { st with
      queue := q4
      emitted := st.emitted ++ [.searching current_user.user_id] }
  else if !dbOk then
    { st with queue := rp.2 ++ [current_user] ++ [partner] }
  else
    { st with
      queue := rp.2
      sessions := st.sessions ++ [(new_id, current_user.user_id, partner.user_id)]
      activePairs := st.activePairs ++ [(new_id, current_user.user_id, partner.user_id)]
      cooldowns := st.cooldowns ++ [(current_user.user_id, partner.user_id)]
      emitted := st.emitted
        ++ [.matchFound current_user.user_id new_id partner.user_id,
            .matchFound partner.user_id new_id current_user.user_id] }

-- ───────────────────────── Candidate selection ─────────────────────────

/-- The score `try_match_inner` computes for a candidate: both phases are
derived from wait times at the same `now`. -/
def candScore (tf : TransFns) (now : ℤ) (current c : QueueUser)
    (h : PairHistory) : MatchScore :=
  calculate_score tf now current c (phaseOf now current) (phaseOf now c) h

/-- One iteration of the candidate loop of `try_match_inner`: skip
candidates on cooldown, compute the score, keep the candidate when it
passes the filters and reaches `min_score`, replacing the running best
only on a strictly greater score. -/
def selectStep (tf : TransFns) (now : ℤ) (current : QueueUser) (min_s : ℚ)
    (best : Option (ℚ × QueueUser)) (e : QueueUser × Bool × PairHistory) :
    Option (ℚ × QueueUser) :=
  if e.2.1 then best
  else
    let s := candScore tf now current e.1 e.2.2
    if s.passes_filters && decide (min_s ≤ s.score) then
      match best with
      | none => some (s.score, e.1)
      | some (bs, bc) => if bs < s.score then some (s.score, e.1) else some (bs, bc)
    else best

/-- The candidate-selection loop of `try_match_inner`
(`socket/handlers.rs`): the threshold is
`phase_a.min_match_score()` — the phase of the initiating user alone —
and the loop keeps the best strictly-improving eligible candidate. Each
list entry carries the candidate, its batch-fetched cooldown flag, and
its batch-fetched pair history. -/
def selectBest (tf : TransFns) (now : ℤ) (current : QueueUser)
    (cands : List (QueueUser × Bool × PairHistory)) : Option (ℚ × QueueUser) :=
  cands.foldl (selectStep tf now current (phaseOf now current).min_match_score) none

/-- `max_phase` as the specification words it: the more lenient of the
two users' phases. -/
def specMaxPhase (pa pb : MatchPhase) : MatchPhase :=
  if pb.toU8 ≤ pa.toU8 then pa else pb

/-- Candidate eligibility exactly as the specification (and claim C1)
words it: no pair cooldown, and
`score(u,c) ≥ min_score(max_phase(phase_u, phase_c))`. -/
def specEligible (tf : TransFns) (now : ℤ) (u c : QueueUser)
    (cooldown : Bool) (h : PairHistory) : Prop :=
  cooldown = false ∧
  (specMaxPhase (phaseOf now u) (phaseOf now c)).min_match_score
    ≤ (candScore tf now u c h).score

instance (tf : TransFns) (now : ℤ) (u c : QueueUser) (cooldown : Bool)
    (h : PairHistory) : Decidable (specEligible tf now u c cooldown h) := by
  unfold specEligible; infer_instance

/-- Code-side eligibility of a candidate in `try_match_inner`: no
cooldown, passes the filters, and the score reaches the minimum score of
the initiating user's phase. -/
def codeEligible (tf : TransFns) (now : ℤ) (current c : QueueUser)
    (cd : Bool) (h : PairHistory) : Prop :=
  cd = false ∧ (candScore tf now current c h).passes_filters = true ∧
  (phaseOf now current).min_match_score ≤ (candScore tf now current c h).score

/-- `pair_modifier` as the specification words it (section 4.D "Pair-history
modifier"): stability `2·likes + 3·follows_bool + 0.1·messages +
1.5·(duration>120s) − 2·skips`; `retrievability = 1/(1 +
elapsed_h/(9·max(1, |stability|)))`; modifier `0.85 + 0.20·(1 − r)` when
stability > 0, else `0.30 + 0.70·(1 − r)`; `1.05` for never-seen pairs. -/
def pair_modifier_as_spec (now : ℤ) (history : PairHistory) : ℚ :=
  if history.times_matched = 0 then 1.05
  else
    let stability : ℚ := 2 * (history.likes : ℚ)
      + (if history.follows then 3.0 else 0.0)
      + 0.1 * (history.messages : ℚ)
      + (if 120 < history.total_duration_secs then 1.5 else 0.0)
      - 2 * (history.skips : ℚ)
    let elapsed_h : ℚ := ((now - history.last_matched_at : ℤ) : ℚ) / 3600000
    let retrievability : ℚ := 1.0 / (1.0 + elapsed_h / (9.0 * max 1.0 |stability|))
    if 0 < stability then 0.85 + 0.20 * (1.0 - retrievability)
    else 0.30 + 0.70 * (1.0 - retrievability)

-- ───────────────────────── Concrete inputs ─────────────────────────

/-- A trivial instantiation of the transcendental-function parameters,
used for concrete evaluations that never reach the geo-distance branch. -/
def tfTrivial : TransFns := ⟨0, id, id, id, id, id⟩

/-- Filters with nothing set. -/
def emptyFilters : MatchFilters := ⟨none, none, none, []⟩

/-- A pair history for a never-matched pair. -/
def freshHistory : PairHistory := ⟨0, 0, 0, 0, false, 0, 0⟩

/-- A user whose kink list contains a duplicate entry. -/
def userDupKinks : QueueUser :=
  ⟨1, "a", none, 30, some "FR", ["x", "x"], none, emptyFilters, none, none, 0⟩

/-- A user with a single kink shared with `userDupKinks`. -/
def userOneKink : QueueUser :=
  ⟨2, "b", none, 30, some "FR", ["x"], none, emptyFilters, none, none, 0⟩

/-- A user declaring country FR and no country filter. -/
def userFR : QueueUser :=
  ⟨1, "a", none, 30, some "FR", [], none, emptyFilters, none, none, 0⟩

/-- A user declaring country JP and no country filter. -/
def userJP : QueueUser :=
  ⟨2, "b", none, 30, some "JP", [], none, emptyFilters, none, none, 0⟩

/-- An initiating user who just joined the queue (wait 0 ms → `Strict`). -/
def strictUser : QueueUser :=
  ⟨1, "u", none, 18, some "FR", [], none, emptyFilters, none, none, 100000000⟩

/-- A candidate who has waited 3000 ms (→ `Desperate`). -/
def desperateCand : QueueUser :=
  ⟨2, "c", none, 60, some "JP", ["k"], none, emptyFilters, none, none, 99997000⟩

/-- A previously-matched pair history whose `last_matched_at` lies ahead
of `now` (a representable state of the stored record); it yields a pair
modifier of `−1` at `now = 100000000`. -/
def futureHistory : PairHistory := ⟨1, 121060000, 0, 0, false, 0, 0⟩

/-- A registry holding one empty conference room. -/
def confRegistry : List (String × RoomModel) :=
  [("room1", ⟨RoomType.Conference, 50, []⟩)]

/-- A user declaring country FR whose filter also demands FR. -/
def userFilterFR : QueueUser :=
  ⟨1, "a", none, 30, some "FR", [], none, ⟨some "FR", none, none, []⟩, none, none, 0⟩

-- ═══════════════════════════ Theorems ═══════════════════════════

theorem rustClamp_bounds (x lo hi : ℚ) (h : lo ≤ hi) :
    lo ≤ rustClamp x lo hi ∧ rustClamp x lo hi ≤ hi := by
  unfold rustClamp
  split_ifs <;> constructor <;> linarith

theorem mos_final_range (r : ℚ) :
    1 ≤ (if r < 6.5 then (1.0:ℚ)
          else rustClamp (1.0 + 0.035 * r + r * (r - 60.0) * (100.0 - r) * 7e-6) 1.0 5.0)
    ∧ (if r < 6.5 then (1.0:ℚ)
          else rustClamp (1.0 + 0.035 * r + r * (r - 60.0) * (100.0 - r) * 7e-6) 1.0 5.0) ≤ 5 := by
  split_ifs with h
  · norm_num
  · have := rustClamp_bounds
      (1.0 + 0.035 * r + r * (r - 60.0) * (100.0 - r) * 7e-6) 1.0 5.0 (by norm_num)
    exact ⟨by linarith [this.1], by linarith [this.2]⟩

/-- C2: for every delay d ≥ 0 ms and loss percentage p ∈ [0, 100] the MOS
estimate lies in [1.0, 5.0] and is computed by the claimed E-model
formula (Id, Ie, clamped R, the R < 6.5 floor, and the final clamp). -/
theorem estimate_mos_range_and_formula (d p : ℚ) (hd : 0 ≤ d) (hp0 : 0 ≤ p)
    (hp1 : p ≤ 100) :
    (1 ≤ estimate_mos d p ∧ estimate_mos d p ≤ 5) ∧
      estimate_mos d p = mos_spec d p := by
  refine ⟨?_, ?_⟩
  · simp only [estimate_mos]
    exact mos_final_range _
  · simp only [estimate_mos, mos_spec]
    have h1 : (if (177.3:ℚ) < d then (1.0:ℚ) else 0.0)
        = (if (0:ℚ) < d - 177.3 then (1.0:ℚ) else 0.0) := by
      split_ifs with ha hb <;> first | rfl | (exfalso; linarith)
    have h2 : (0.0:ℚ) + (95.0 - 0.0) * p / (p + 25.1)
        = 95.0 * p / (p + 25.1) := by ring
    rw [h1, h2]

/-- C5: the pair-history modifier is exactly the claimed formula — 1.05
for a never-matched pair, otherwise the FSRS-style
stability/retrievability expression. -/
theorem pair_modifier_matches_spec (now : ℤ) (h : PairHistory) :
    pair_modifier now h = pair_modifier_as_spec now h := by
  simp only [pair_modifier, pair_modifier_as_spec]
  by_cases h0 : h.times_matched = 0
  · rw [if_pos h0, if_pos h0]
  · rw [if_neg h0, if_neg h0]
    have hs : (h.likes : ℚ) * 2.0 + (if h.follows then 3.0 else 0.0)
        + (h.messages : ℚ) * 0.1
        + (if 120 < h.total_duration_secs then 1.5 else 0.0)
        - (h.skips : ℚ) * 2.0
        = 2 * (h.likes : ℚ) + (if h.follows then 3.0 else 0.0)
        + 0.1 * (h.messages : ℚ)
        + (if 120 < h.total_duration_secs then 1.5 else 0.0)
        - 2 * (h.skips : ℚ) := by ring
    rw [hs, max_comm]

/-- C2 witness: delay 0 ms, loss 0 % satisfy the hypotheses, and the
theorem yields the bounds and the formula there. -/
theorem estimate_mos_range_and_formula_witness :
    ((0:ℚ) ≤ 0 ∧ (0:ℚ) ≤ 0 ∧ (0:ℚ) ≤ 100) ∧
      ((1 ≤ estimate_mos 0 0 ∧ estimate_mos 0 0 ≤ 5) ∧
        estimate_mos 0 0 = mos_spec 0 0) :=
  ⟨⟨le_refl 0, le_refl 0, by norm_num⟩,
    estimate_mos_range_and_formula 0 0 (le_refl 0) (le_refl 0) (by norm_num)⟩

theorem passes_filters_strict_false (v : QueueUser) (f : MatchFilters)
    (c c' : String) (hc : f.country = some c) (hv : v.country = some c')
    (hne : c ≠ c') : passes_filters v f .Strict = false := by
  simp [passes_filters, hc, hv, hne]

/-- C4 (amended): in the Strict phase the hard filter compares one user's
declared country filter with the other user's declared country; when the
filter is set and the other's country is present and differs, the pair
fails the filters and scores 0. -/
theorem strict_country_filter_mismatch_zero (tf : TransFns) (now : ℤ)
    (u v : QueueUser) (h : PairHistory) (c c' : String)
    (hc : u.filters.country = some c) (hv : v.country = some c')
    (hne : c ≠ c') :
    calculate_score tf now u v .Strict .Strict h = ⟨0, false⟩ := by
  have hb := passes_filters_strict_false v u.filters c c' hc hv hne
  norm_num [calculate_score, governingPhase, MatchPhase.toU8, hb]

/-- C4 counterexample: two users in Strict phase with declared countries
FR and JP but no country filters pass the filters and score 0.6575, not
0 — declared-country mismatch alone does not block. -/
theorem strict_declared_country_mismatch_cex :
    (calculate_score tfTrivial 0 userFR userJP .Strict .Strict freshHistory).passes_filters = true
    ∧ (calculate_score tfTrivial 0 userFR userJP .Strict .Strict freshHistory).score ≠ 0 := by
  constructor
  · norm_num [calculate_score, governingPhase, passes_filters, userFR, userJP, emptyFilters, MatchPhase.toU8]
  · have hne : ("FR" : String) ≠ "JP" := by decide
    norm_num [calculate_score, governingPhase, kinks_overlap, country_match, passes_filters,
      userFR, userJP, emptyFilters, freshHistory,
      tfTrivial, MatchPhase.toU8, age_score, pair_modifier, freshness_score, distance_score,
      belowAgeMin, aboveAgeMax, W_COUNTRY, W_AGE, W_KINKS, W_HISTORY, W_FRESHNESS, W_DISTANCE, hne]

/-- C4 witness: with the filter country set to FR against a declared JP,
the amended theorem applies and gives score 0. -/
theorem strict_country_filter_mismatch_zero_witness :
    userFilterFR.filters.country = some "FR" ∧ userJP.country = some "JP" ∧
      calculate_score tfTrivial 0 userFilterFR userJP .Strict .Strict freshHistory = ⟨0, false⟩ :=
  ⟨rfl, rfl,
    strict_country_filter_mismatch_zero tfTrivial 0 userFilterFR userJP freshHistory
      "FR" "JP" rfl rfl (by decide)⟩

theorem roomPublish_error_eq (m : ℕ) (pubs : List String) (sub : String)
    (s : Bool) (e : ApiErr) :
    roomPublish m pubs sub s = .error e → e = .roomFull := by
  intro he
  unfold roomPublish at he
  split_ifs at he <;>
    first
      | exact (Except.error.inj he).symm
      | exact absurd he (by simp)

/-- C7 (amended): the publish operation accepts a verified token exactly
when its role is `publish` or `call`; any other role — including
`conference` — is rejected with `role_insufficient` and the room registry
is untouched. -/
theorem sfu_publish_role_gate (rooms : List (String × RoomModel))
    (role room_id sub : String) (isScreen pcOk : Bool) :
    (¬(role = "publish" ∨ role = "call") →
      sfuPublishStep rooms role room_id sub isScreen pcOk
        = (.error .roleInsufficient, rooms))
    ∧ ((role = "publish" ∨ role = "call") →
      (sfuPublishStep rooms role room_id sub isScreen pcOk).1
        ≠ Except.error ApiErr.roleInsufficient) := by
  constructor
  · intro hrole
    push_neg at hrole
    unfold sfuPublishStep
    have h1 : (role == "publish") = false := by simp [hrole.1]
    have h2 : (role == "call") = false := by simp [hrole.2]
    simp [h1, h2]
  · intro hrole
    unfold sfuPublishStep
    have hgate : (!(role == "publish") && !(role == "call")) = false := by
      rcases hrole with h | h <;> simp [h]
    rw [hgate]
    simp only [Bool.false_eq_true, if_false]
    split
    next => simp
    next room hroom =>
      split
      next => simp
      next =>
        split
        next => simp
        next =>
          split
          next e heq =>
            have h5 := roomPublish_error_eq room.max_publishers room.publishers sub isScreen e heq
            subst h5
            simp
          next pubs' heq => simp

/-- C7 counterexample: a verified token with role `conference` is
rejected by the publish operation with `role_insufficient`, contradicting
the claimed accepted set {publish, call, conference}. -/
theorem sfu_publish_rejects_conference_cex :
    sfuPublishStep confRegistry "conference" "room1" "peer" false true
      = (.error .roleInsufficient, confRegistry) := by
  rfl

/-- C7 witness: role `publish` passes the gate on the empty registry. -/
theorem sfu_publish_role_gate_witness :
    (sfuPublishStep [] "publish" "room1" "peer" false true).1
      ≠ Except.error ApiErr.roleInsufficient :=
  (sfu_publish_role_gate [] "publish" "room1" "peer" false true).2 (Or.inl rfl)

theorem governingPhase_comm (pa pb : MatchPhase) :
    governingPhase pa pb = governingPhase pb pa := by
  cases pa <;> cases pb <;> rfl

theorem haversine_km_comm (tf : TransFns) (hsin : ∀ x, tf.sin (-x) = -tf.sin x)
    (lat1 lng1 lat2 lng2 : ℚ) :
    haversine_km tf lat1 lng1 lat2 lng2 = haversine_km tf lat2 lng2 lat1 lng1 := by
  simp only [haversine_km, TransFns.toRadians]
  have h1 : (lat1 - lat2) * (tf.pi / 180) / 2.0 = -((lat2 - lat1) * (tf.pi / 180) / 2.0) := by
    ring
  have h2 : (lng1 - lng2) * (tf.pi / 180) / 2.0 = -((lng2 - lng1) * (tf.pi / 180) / 2.0) := by
    ring
  rw [h1, h2, hsin, hsin]
  congr 2
  ring

theorem age_score_comm (a b : ℤ) (fa fb : MatchFilters) :
    age_score a b fa fb = age_score b a fb fa := by
  unfold age_score
  rw [abs_sub_comm]
  ring

theorem distance_score_comm (tf : TransFns) (hsin : ∀ x, tf.sin (-x) = -tf.sin x)
    (ua ub : QueueUser) : distance_score tf ua ub = distance_score tf ub ua := by
  unfold distance_score
  cases ua.latitude <;> cases ua.longitude <;> cases ub.latitude <;> cases ub.longitude <;>
    simp [haversine_km_comm tf hsin]

theorem filter_contains_length_comm (l₁ l₂ : List String) (h₁ : l₁.Nodup) (h₂ : l₂.Nodup) :
    (l₁.filter (fun k => l₂.contains k)).length
      = (l₂.filter (fun k => l₁.contains k)).length := by
  have key : ∀ (a b : List String), a.Nodup →
      (a.filter (fun k => b.contains k)).length = (a.toFinset ∩ b.toFinset).card := by
    intro a b ha
    have hnd : (a.filter (fun k => b.contains k)).Nodup := ha.filter _
    rw [← List.toFinset_card_of_nodup hnd, List.toFinset_filter]
    congr 1
    rw [← Finset.filter_mem_eq_inter]
    apply Finset.filter_congr
    intro x _
    simp [List.elem_iff]
  rw [key l₁ l₂ h₁, key l₂ l₁ h₂, Finset.inter_comm]

theorem country_match_comm (x y : Option String) :
    country_match x y = country_match y x := by
  cases x <;> cases y <;> simp [country_match, eq_comm]

theorem kinks_overlap_comm (ka kb : List String) (ha : ka.Nodup) (hb : kb.Nodup) :
    kinks_overlap ka kb = kinks_overlap kb ka := by
  unfold kinks_overlap
  rw [filter_contains_length_comm ka kb ha hb, Nat.max_comm ka.length kb.length,
    Bool.and_comm ka.isEmpty kb.isEmpty]

/-- C3 (amended): the match score is symmetric — same score and same
`passes_filters` flag — for all users whose kink lists contain no
duplicate entries (the `sin` parameter being odd, as the real `sin` is).
With a duplicated kink the overlap ratio is counted from the first
user's side and symmetry fails. -/
theorem calculate_score_symm (tf : TransFns) (hsin : ∀ x, tf.sin (-x) = -tf.sin x)
    (now : ℤ) (u v : QueueUser) (pu pv : MatchPhase) (h : PairHistory)
    (hu : u.kinks.Nodup) (hv : v.kinks.Nodup) :
    calculate_score tf now u v pu pv h = calculate_score tf now v u pv pu h := by
  simp only [calculate_score]
  rw [governingPhase_comm pv pu, Bool.or_comm]
  refine if_congr Iff.rfl rfl ?_
  rw [age_score_comm v.age u.age, distance_score_comm tf hsin v u,
    kinks_overlap_comm v.kinks u.kinks hv hu,
    add_comm (max (now - v.joined_at) 0) (max (now - u.joined_at) 0),
    country_match_comm v.country u.country]

/-- C3 counterexample: with kink lists ["x", "x"] and ["x"] (all other
attributes symmetric, same history) the two orders give scores 0.9325
and 0.8325 — `calculate_score` is not symmetric as claimed. -/
theorem calculate_score_asymmetric_dup_kinks_cex :
    (calculate_score tfTrivial 0 userDupKinks userOneKink .Desperate .Desperate
        freshHistory).score
      ≠ (calculate_score tfTrivial 0 userOneKink userDupKinks .Desperate .Desperate
        freshHistory).score := by
  norm_num [calculate_score, governingPhase, kinks_overlap, country_match, passes_filters,
    userDupKinks, userOneKink, emptyFilters,
    freshHistory, tfTrivial, MatchPhase.toU8, age_score, pair_modifier, freshness_score,
    distance_score, belowAgeMin, aboveAgeMax, W_COUNTRY, W_AGE, W_KINKS, W_HISTORY,
    W_FRESHNESS, W_DISTANCE, List.filter, List.contains]

/-- C3 witness: two duplicate-free users satisfy the hypotheses and the
amended theorem yields symmetry there. -/
theorem calculate_score_symm_witness :
    userFR.kinks.Nodup ∧ userJP.kinks.Nodup ∧
      calculate_score tfTrivial 5 userFR userJP .Normal .Relaxed freshHistory
        = calculate_score tfTrivial 5 userJP userFR .Relaxed .Normal freshHistory :=
  ⟨List.nodup_nil, List.nodup_nil,
    calculate_score_symm tfTrivial (fun _ => rfl) 5 userFR userJP .Normal .Relaxed
      freshHistory List.nodup_nil List.nodup_nil⟩

theorem hasScreenSuffix_append (s : String) : hasScreenSuffix (s ++ "-screen") = true := by
  have h : "-screen".toList <:+ (s ++ "-screen").toList := by
    have he : (s ++ "-screen").toList = s.toList ++ "-screen".toList := by
      simp [String.toList]
    rw [he]
    exact List.suffix_append _ _
  exact List.isSuffixOf_iff_suffix.mpr h

theorem nonScreenCount_le_length (pubs : List String) :
    nonScreenCount pubs ≤ pubs.length :=
  List.length_filter_le _ pubs

theorem nonScreenCount_insertKey_screen (pubs : List String) (k : String)
    (hk : hasScreenSuffix k = true) :
    nonScreenCount (insertKey pubs k) = nonScreenCount pubs := by
  unfold insertKey
  split_ifs with h
  · rfl
  · simp [nonScreenCount, List.filter_append, hk]

theorem insertKey_length_le (pubs : List String) (k : String) :
    (insertKey pubs k).length ≤ pubs.length + 1 := by
  unfold insertKey
  split_ifs with h
  · omega
  · simp

theorem nonScreenCount_erase_le (pubs : List String) (pid : String) :
    nonScreenCount (pubs.erase pid) ≤ nonScreenCount pubs := by
  unfold nonScreenCount
  exact ((pubs.erase_sublist pid).filter _).length_le

theorem RoomReachable.nonScreen_le (maxPubs : ℕ) (pubs : List String)
    (h : RoomReachable maxPubs pubs) : nonScreenCount pubs ≤ maxPubs := by
  induction h with
  | init => simp [nonScreenCount]
  | publish pubs sub isScreen pubs' hr hok ih =>
    unfold roomPublish at hok
    by_cases hs : isScreen
    · subst hs
      simp only [Bool.not_true, Bool.false_and, Bool.false_eq_true, if_false, if_true,
        Except.ok.injEq] at hok
      rw [← hok, nonScreenCount_insertKey_screen pubs _ (hasScreenSuffix_append sub)]
      exact ih
    · have hs' : isScreen = false := by revert hs; cases isScreen <;> simp
      subst hs'
      simp only [Bool.not_false, Bool.true_and, if_false] at hok
      by_cases hcap : maxPubs ≤ pubs.length
      · simp [hcap] at hok
      · simp only [hcap, decide_False, Bool.false_eq_true, if_false, Except.ok.injEq] at hok
        calc nonScreenCount pubs' ≤ pubs'.length := nonScreenCount_le_length pubs'
          _ ≤ pubs.length + 1 := by rw [← hok]; exact insertKey_length_le pubs sub
          _ ≤ maxPubs := by omega
  | remove pubs pid hr ih =>
    exact le_trans (nonScreenCount_erase_le pubs pid) ih

/-- C8: in every publisher set reachable through publish and remove
operations, the number of non-screen publishers stays within
`max_publishers` (Broadcast 1, Call 2, Conference 50); screen-share
inserts bypass the cap; a non-screen insert at or above the cap fails
with `room_full` and leaves the registry unchanged. -/
theorem room_publisher_cap (rt : RoomType) (pubs : List String)
    (hreach : RoomReachable (maxPublishersOf rt) pubs) :
    nonScreenCount pubs ≤ maxPublishersOf rt
    ∧ (∀ sub, maxPublishersOf rt ≤ nonScreenCount pubs →
        roomPublish (maxPublishersOf rt) pubs sub false = .error .roomFull)
    ∧ (∀ (rooms : List (String × RoomModel)) (rid sub : String) (room : RoomModel),
        List.lookup rid rooms = some room → room.publishers = pubs →
        room.max_publishers = maxPublishersOf rt →
        maxPublishersOf rt ≤ nonScreenCount pubs →
        sfuPublishStep rooms "publish" rid sub false true = (.error .roomFull, rooms)) := by
  refine ⟨RoomReachable.nonScreen_le _ _ hreach, ?_, ?_⟩
  · intro sub hfull
    have hlen : maxPublishersOf rt ≤ pubs.length :=
      le_trans hfull (nonScreenCount_le_length pubs)
    unfold roomPublish
    simp [hlen]
  · intro rooms rid sub room hlk hpubs hmax hfull
    have hlen : maxPublishersOf rt ≤ pubs.length :=
      le_trans hfull (nonScreenCount_le_length pubs)
    unfold sfuPublishStep
    rw [hlk]
    have hno : ¬(room.publishers.length < room.max_publishers) := by
      rw [hpubs, hmax]; omega
    simp [hno]

/-- C8 witness: the empty Broadcast room is reachable and satisfies the
cap. -/
theorem room_publisher_cap_witness :
    nonScreenCount [] ≤ maxPublishersOf RoomType.Broadcast :=
  (room_publisher_cap RoomType.Broadcast [] RoomReachable.init).1


theorem remove_from_queue_false (q : List QueueUser) (uid : ℕ)
    (h : (remove_from_queue q uid).1 = false) : (remove_from_queue q uid).2 = q := by
  induction q with
  | nil => rfl
  | cons u rest ih =>
    by_cases hu : u.user_id = uid
    · simp [remove_from_queue, hu] at h
    · simp [remove_from_queue, hu] at h ⊢
      exact ih h

theorem remove_from_queue_perm (q : List QueueUser) (uid : ℕ)
    (h : (remove_from_queue q uid).1 = true) :
    ((remove_from_queue q uid).2.map QueueUser.user_id ++ [uid]).Perm
      (q.map QueueUser.user_id) := by
  induction q with
  | nil => simp [remove_from_queue] at h
  | cons u rest ih =>
    by_cases hu : u.user_id = uid
    · simp only [remove_from_queue, hu, if_true, if_pos, List.map_cons]
      exact List.perm_append_singleton uid (rest.map QueueUser.user_id)
    · simp only [remove_from_queue, hu, if_false] at h
      simp only [remove_from_queue, hu, if_false, List.map_cons, List.cons_append,
        Bool.false_eq_true]
      exact (ih h).cons u.user_id


/-- C9: a session row, active pair, cooldown and the pair of match-found
emissions (both carrying the same match id) are produced only when both
queue removals succeeded (and the database insert went through); when a
removal fails, the succeeded removal is undone by re-inserting that user,
`searching` is emitted, and sessions, active pairs and cooldowns are
untouched. -/
theorem pairing_double_remove_atomicity (st : MatchState) (u p : QueueUser)
    (dbOk : Bool) (nid : ℕ) :
    (¬((remove_from_queue st.queue u.user_id).1 = true
        ∧ (remove_from_queue (remove_from_queue st.queue u.user_id).2 p.user_id).1 = true) →
      (finalizeMatch st u p dbOk nid).sessions = st.sessions
      ∧ (finalizeMatch st u p dbOk nid).activePairs = st.activePairs
      ∧ (finalizeMatch st u p dbOk nid).cooldowns = st.cooldowns
      ∧ (finalizeMatch st u p dbOk nid).emitted
          = st.emitted ++ [SocketEvent.searching u.user_id]
      ∧ ((finalizeMatch st u p dbOk nid).queue.map QueueUser.user_id).Perm
          (st.queue.map QueueUser.user_id))
    ∧ (∀ s, s ∈ (finalizeMatch st u p dbOk nid).sessions → s ∉ st.sessions →
        (remove_from_queue st.queue u.user_id).1 = true
        ∧ (remove_from_queue (remove_from_queue st.queue u.user_id).2 p.user_id).1 = true
        ∧ dbOk = true)
    ∧ (∀ a mid b, SocketEvent.matchFound a mid b ∈ (finalizeMatch st u p dbOk nid).emitted →
        SocketEvent.matchFound a mid b ∉ st.emitted →
        (remove_from_queue st.queue u.user_id).1 = true
        ∧ (remove_from_queue (remove_from_queue st.queue u.user_id).2 p.user_id).1 = true
        ∧ dbOk = true ∧ mid = nid)
    ∧ ((remove_from_queue st.queue u.user_id).1 = true →
        (remove_from_queue (remove_from_queue st.queue u.user_id).2 p.user_id).1 = true →
        dbOk = true →
        (finalizeMatch st u p dbOk nid).sessions
            = st.sessions ++ [(nid, u.user_id, p.user_id)]
        ∧ (finalizeMatch st u p dbOk nid).activePairs
            = st.activePairs ++ [(nid, u.user_id, p.user_id)]
        ∧ (finalizeMatch st u p dbOk nid).cooldowns
            = st.cooldowns ++ [(u.user_id, p.user_id)]
        ∧ (finalizeMatch st u p dbOk nid).emitted
            = st.emitted ++ [SocketEvent.matchFound u.user_id nid p.user_id,
                SocketEvent.matchFound p.user_id nid u.user_id]) := by
  by_cases h1 : (remove_from_queue st.queue u.user_id).1 = true <;>
    by_cases h2 : (remove_from_queue (remove_from_queue st.queue u.user_id).2 p.user_id).1
        = true
  · -- both removals succeed
    cases dbOk with
    | false =>
      refine ⟨fun hc => absurd ⟨h1, h2⟩ hc, ?_, ?_, ?_⟩
      · intro s hs hns
        simp [finalizeMatch, h1, h2] at hs
        exact absurd hs hns
      · intro a mid b hm hnm
        simp [finalizeMatch, h1, h2] at hm
        exact absurd hm hnm
      · intro _ _ hdb
        exact absurd hdb (by simp)
    | true =>
      refine ⟨fun hc => absurd ⟨h1, h2⟩ hc, ?_, ?_, ?_⟩
      · intro s hs hns
        exact ⟨h1, h2, rfl⟩
      · intro a mid b hm hnm
        refine ⟨h1, h2, rfl, ?_⟩
        simp [finalizeMatch, h1, h2] at hm
        rcases hm with hm | hm | hm
        · exact absurd hm hnm
        · exact hm.2.1
        · exact hm.2.1
      · intro _ _ _
        refine ⟨?_, ?_, ?_, ?_⟩ <;> simp [finalizeMatch, h1, h2]
  · -- second removal fails
    have h2f : (remove_from_queue (remove_from_queue st.queue u.user_id).2 p.user_id).1
        = false := by revert h2; cases (remove_from_queue (remove_from_queue st.queue u.user_id).2 p.user_id).1 <;> simp
    refine ⟨?_, ?_, ?_, ?_⟩
    · intro _
      refine ⟨by simp [finalizeMatch, h1, h2f], by simp [finalizeMatch, h1, h2f],
        by simp [finalizeMatch, h1, h2f], by simp [finalizeMatch, h1, h2f], ?_⟩
      have hq : (finalizeMatch st u p dbOk nid).queue
          = (remove_from_queue (remove_from_queue st.queue u.user_id).2 p.user_id).2
            ++ [u] := by
        simp [finalizeMatch, h1, h2f]
      rw [hq, remove_from_queue_false _ _ h2f, List.map_append]
      exact remove_from_queue_perm st.queue u.user_id h1
    · intro s hs hns
      simp [finalizeMatch, h1, h2f] at hs
      exact absurd hs hns
    · intro a mid b hm hnm
      simp [finalizeMatch, h1, h2f] at hm
      exact absurd hm hnm
    · intro _ hc _
      exact absurd hc h2
  · -- first removal fails
    have h1f : (remove_from_queue st.queue u.user_id).1 = false := by
      revert h1; cases (remove_from_queue st.queue u.user_id).1 <;> simp
    refine ⟨?_, ?_, ?_, ?_⟩
    · intro _
      refine ⟨by simp [finalizeMatch, h1f], by simp [finalizeMatch, h1f],
        by simp [finalizeMatch, h1f], by simp [finalizeMatch, h1f], ?_⟩
      by_cases h2' : (remove_from_queue (remove_from_queue st.queue u.user_id).2 p.user_id).1
          = true
      · have hq : (finalizeMatch st u p dbOk nid).queue
            = (remove_from_queue (remove_from_queue st.queue u.user_id).2 p.user_id).2
              ++ [p] := by
          simp [finalizeMatch, h1f, h2']
        rw [remove_from_queue_false _ _ h1f] at h2'
        rw [hq, List.map_append, remove_from_queue_false _ _ h1f]
        simp only [List.map_cons, List.map_nil]
        exact remove_from_queue_perm st.queue p.user_id h2'
      · have h2f : (remove_from_queue (remove_from_queue st.queue u.user_id).2 p.user_id).1
            = false := by
          revert h2'; cases (remove_from_queue (remove_from_queue st.queue u.user_id).2 p.user_id).1 <;> simp
        have hq : (finalizeMatch st u p dbOk nid).queue
            = (remove_from_queue (remove_from_queue st.queue u.user_id).2 p.user_id).2 := by
          simp [finalizeMatch, h1f, h2f]
        rw [hq, remove_from_queue_false _ _ h2f, remove_from_queue_false _ _ h1f]
    · intro s hs hns
      simp [finalizeMatch, h1f] at hs
      exact absurd hs hns
    · intro a mid b hm hnm
      simp [finalizeMatch, h1f] at hm
      exact absurd hm hnm
    · intro hc _ _
      exact absurd hc h1
  · -- both fail: covered by first-removal-fails case shape
    have h1f : (remove_from_queue st.queue u.user_id).1 = false := by
      revert h1; cases (remove_from_queue st.queue u.user_id).1 <;> simp
    refine ⟨?_, ?_, ?_, ?_⟩
    · intro _
      refine ⟨by simp [finalizeMatch, h1f], by simp [finalizeMatch, h1f],
        by simp [finalizeMatch, h1f], by simp [finalizeMatch, h1f], ?_⟩
      have h2f : (remove_from_queue (remove_from_queue st.queue u.user_id).2 p.user_id).1
          = false := by
        revert h2; cases (remove_from_queue (remove_from_queue st.queue u.user_id).2 p.user_id).1 <;> simp
      have hq : (finalizeMatch st u p dbOk nid).queue
          = (remove_from_queue (remove_from_queue st.queue u.user_id).2 p.user_id).2 := by
        simp [finalizeMatch, h1f, h2f]
      rw [hq, remove_from_queue_false _ _ h2f, remove_from_queue_false _ _ h1f]
    · intro s hs hns
      simp [finalizeMatch, h1f] at hs
      exact absurd hs hns
    · intro a mid b hm hnm
      simp [finalizeMatch, h1f] at hm
      exact absurd hm hnm
    · intro hc _ _
      exact absurd hc h1

/-- C9 witness: on an empty queue both removals fail, and the theorem
yields the unchanged-stores conclusion there. -/
theorem pairing_double_remove_atomicity_witness :
    (finalizeMatch ⟨[], [], [], [], []⟩ userFR userJP true 7).sessions
      = ([] : List (ℕ × ℕ × ℕ)) :=
  ((pairing_double_remove_atomicity ⟨[], [], [], [], []⟩ userFR userJP true 7).1
    (by simp [remove_from_queue])).1


theorem selectStep_eq_of_cooldown (tf : TransFns) (now : ℤ) (current : QueueUser)
    (min_s : ℚ) (acc : Option (ℚ × QueueUser)) (c₁ : QueueUser) (h₁ : PairHistory) :
    selectStep tf now current min_s acc (c₁, true, h₁) = acc := by
  simp [selectStep]

theorem selectStep_eq_of_ineligible (tf : TransFns) (now : ℤ) (current : QueueUser)
    (min_s : ℚ) (acc : Option (ℚ × QueueUser)) (c₁ : QueueUser) (h₁ : PairHistory)
    (hne : ¬((candScore tf now current c₁ h₁).passes_filters = true
      ∧ min_s ≤ (candScore tf now current c₁ h₁).score)) :
    selectStep tf now current min_s acc (c₁, false, h₁) = acc := by
  have hb : ((candScore tf now current c₁ h₁).passes_filters
      && decide (min_s ≤ (candScore tf now current c₁ h₁).score)) = false := by
    by_cases hpass : (candScore tf now current c₁ h₁).passes_filters = true
    · have hlt : ¬(min_s ≤ (candScore tf now current c₁ h₁).score) :=
        fun hle => hne ⟨hpass, hle⟩
      simp [hpass, hlt]
    · have hf : (candScore tf now current c₁ h₁).passes_filters = false := by
        revert hpass; cases (candScore tf now current c₁ h₁).passes_filters <;> simp
      simp [hf]
  simp [selectStep, hb]

theorem selectStep_eq_of_eligible_none (tf : TransFns) (now : ℤ) (current : QueueUser)
    (min_s : ℚ) (c₁ : QueueUser) (h₁ : PairHistory)
    (hp : (candScore tf now current c₁ h₁).passes_filters = true)
    (hs : min_s ≤ (candScore tf now current c₁ h₁).score) :
    selectStep tf now current min_s none (c₁, false, h₁)
      = some ((candScore tf now current c₁ h₁).score, c₁) := by
  simp [selectStep, hp, hs]

theorem selectStep_eq_of_eligible_some (tf : TransFns) (now : ℤ) (current : QueueUser)
    (min_s : ℚ) (bs : ℚ) (bc c₁ : QueueUser) (h₁ : PairHistory)
    (hp : (candScore tf now current c₁ h₁).passes_filters = true)
    (hs : min_s ≤ (candScore tf now current c₁ h₁).score) :
    selectStep tf now current min_s (some (bs, bc)) (c₁, false, h₁)
      = if bs < (candScore tf now current c₁ h₁).score
          then some ((candScore tf now current c₁ h₁).score, c₁)
          else some (bs, bc) := by
  simp [selectStep, hp, hs]


theorem selectFold_spec (tf : TransFns) (now : ℤ) (current : QueueUser) (min_s : ℚ) :
    ∀ (cands : List (QueueUser × Bool × PairHistory)) (acc : Option (ℚ × QueueUser)),
      (∀ s c, cands.foldl (selectStep tf now current min_s) acc = some (s, c) →
        ((acc = some (s, c)) ∨ ∃ cd h, (c, cd, h) ∈ cands ∧ cd = false
            ∧ (candScore tf now current c h).passes_filters = true
            ∧ min_s ≤ s ∧ s = (candScore tf now current c h).score)
        ∧ (∀ s₀ c₀, acc = some (s₀, c₀) → s₀ ≤ s)
        ∧ (∀ c' cd' h', (c', cd', h') ∈ cands → cd' = false →
            (candScore tf now current c' h').passes_filters = true →
            min_s ≤ (candScore tf now current c' h').score →
            (candScore tf now current c' h').score ≤ s))
      ∧ (cands.foldl (selectStep tf now current min_s) acc = none →
          acc = none ∧ ∀ c' cd' h', (c', cd', h') ∈ cands → cd' = false →
            ¬((candScore tf now current c' h').passes_filters = true
              ∧ min_s ≤ (candScore tf now current c' h').score)) := by
  intro cands
  induction cands with
  | nil =>
    intro acc
    constructor
    · intro s c hfold
      simp only [List.foldl_nil] at hfold
      refine ⟨Or.inl hfold, ?_, ?_⟩
      · intro s₀ c₀ h₀
        rw [hfold] at h₀
        simp only [Option.some.injEq, Prod.mk.injEq] at h₀
        exact le_of_eq h₀.1.symm
      · intro c' cd' h' hmem
        simp at hmem
    · intro hfold
      refine ⟨hfold, ?_⟩
      intro c' cd' h' hmem
      simp at hmem
  | cons e rest ih =>
    intro acc
    obtain ⟨c₁, cd₁, h₁⟩ := e
    have hfc : ((c₁, cd₁, h₁) :: rest).foldl (selectStep tf now current min_s) acc
        = rest.foldl (selectStep tf now current min_s)
            (selectStep tf now current min_s acc (c₁, cd₁, h₁)) := List.foldl_cons _ _
    -- case analysis on how the step treated the head entry
    by_cases hcd : cd₁ = true
    · subst hcd
      have hstep := selectStep_eq_of_cooldown tf now current min_s acc c₁ h₁
      rw [hfc, hstep]
      obtain ⟨IH1, IH2⟩ := ih acc
      constructor
      · intro s c hfold
        obtain ⟨hsrc, hge, hmax⟩ := IH1 s c hfold
        refine ⟨?_, hge, ?_⟩
        · rcases hsrc with hacc | ⟨cd, h, hmem, hrest⟩
          · exact Or.inl hacc
          · exact Or.inr ⟨cd, h, List.mem_cons_of_mem _ hmem, hrest⟩
        · intro c' cd' h' hmem hcd' hp' hs'
          rcases List.mem_cons.mp hmem with heq | hmem'
          · exfalso
            cases heq
            simp at hcd'
          · exact hmax c' cd' h' hmem' hcd' hp' hs'
      · intro hfold
        obtain ⟨hacc, hnone⟩ := IH2 hfold
        refine ⟨hacc, ?_⟩
        intro c' cd' h' hmem hcd'
        rcases List.mem_cons.mp hmem with heq | hmem'
        · exfalso
          cases heq
          simp at hcd'
        · exact hnone c' cd' h' hmem' hcd'
    · have hcdf : cd₁ = false := by revert hcd; cases cd₁ <;> simp
      subst hcdf
      by_cases helig : (candScore tf now current c₁ h₁).passes_filters = true
          ∧ min_s ≤ (candScore tf now current c₁ h₁).score
      · -- eligible head
        obtain ⟨hp₁, hs₁⟩ := helig
        cases hacc : acc with
        | none =>
          have hstep := selectStep_eq_of_eligible_none tf now current min_s c₁ h₁ hp₁ hs₁
          rw [hacc] at hfc
          rw [hfc, hstep]
          obtain ⟨IH1, IH2⟩ := ih (some ((candScore tf now current c₁ h₁).score, c₁))
          constructor
          · intro s c hfold
            obtain ⟨hsrc, hge, hmax⟩ := IH1 s c hfold
            have hbound : (candScore tf now current c₁ h₁).score ≤ s := hge _ _ rfl
            refine ⟨?_, ?_, ?_⟩
            · rcases hsrc with hacc' | ⟨cd, h, hmem, hrest⟩
              · simp only [Option.some.injEq, Prod.mk.injEq] at hacc'
                obtain ⟨h1eq, h2eq⟩ := hacc'
                subst h1eq
                subst h2eq
                exact Or.inr ⟨false, h₁, List.mem_cons_self _ _, rfl, hp₁, hs₁, rfl⟩
              · exact Or.inr ⟨cd, h, List.mem_cons_of_mem _ hmem, hrest⟩
            · intro s₀ c₀ h₀
              simp at h₀
            · intro c' cd' h' hmem hcd' hp' hs'
              rcases List.mem_cons.mp hmem with heq | hmem'
              · have : c' = c₁ ∧ h' = h₁ := by cases heq; exact ⟨rfl, rfl⟩
                rw [this.1, this.2]
                exact hbound
              · exact hmax c' cd' h' hmem' hcd' hp' hs'
          · intro hfold
            obtain ⟨hacc', _⟩ := IH2 hfold
            simp at hacc'
        | some bpair =>
          obtain ⟨bs, bc⟩ := bpair
          have hstep := selectStep_eq_of_eligible_some tf now current min_s bs bc c₁ h₁ hp₁ hs₁
          rw [hacc] at hfc
          rw [hfc, hstep]
          by_cases hlt : bs < (candScore tf now current c₁ h₁).score
          · rw [if_pos hlt]
            obtain ⟨IH1, IH2⟩ := ih (some ((candScore tf now current c₁ h₁).score, c₁))
            constructor
            · intro s c hfold
              obtain ⟨hsrc, hge, hmax⟩ := IH1 s c hfold
              have hbound : (candScore tf now current c₁ h₁).score ≤ s := hge _ _ rfl
              refine ⟨?_, ?_, ?_⟩
              · rcases hsrc with hacc' | ⟨cd, h, hmem, hrest⟩
                · simp only [Option.some.injEq, Prod.mk.injEq] at hacc'
                  obtain ⟨h1eq, h2eq⟩ := hacc'
                  subst h1eq
                  subst h2eq
                  exact Or.inr ⟨false, h₁, List.mem_cons_self _ _, rfl, hp₁, hs₁, rfl⟩
                · exact Or.inr ⟨cd, h, List.mem_cons_of_mem _ hmem, hrest⟩
              · intro s₀ c₀ h₀
                try rw [hacc] at h₀
                simp only [Option.some.injEq, Prod.mk.injEq] at h₀
                calc s₀ = bs := h₀.1.symm
                  _ ≤ (candScore tf now current c₁ h₁).score := le_of_lt hlt
                  _ ≤ s := hbound
              · intro c' cd' h' hmem hcd' hp' hs'
                rcases List.mem_cons.mp hmem with heq | hmem'
                · have : c' = c₁ ∧ h' = h₁ := by cases heq; exact ⟨rfl, rfl⟩
                  rw [this.1, this.2]
                  exact hbound
                · exact hmax c' cd' h' hmem' hcd' hp' hs'
            · intro hfold
              obtain ⟨hacc', _⟩ := IH2 hfold
              simp at hacc'
          · rw [if_neg hlt]
            obtain ⟨IH1, IH2⟩ := ih (some (bs, bc))
            constructor
            · intro s c hfold
              obtain ⟨hsrc, hge, hmax⟩ := IH1 s c hfold
              have hbs : bs ≤ s := hge _ _ rfl
              refine ⟨?_, ?_, ?_⟩
              · rcases hsrc with hacc' | ⟨cd, h, hmem, hrest⟩
                · exact Or.inl (by (try rw [hacc]); exact hacc')
                · exact Or.inr ⟨cd, h, List.mem_cons_of_mem _ hmem, hrest⟩
              · intro s₀ c₀ h₀
                try rw [hacc] at h₀
                simp only [Option.some.injEq, Prod.mk.injEq] at h₀
                exact h₀.1 ▸ hbs
              · intro c' cd' h' hmem hcd' hp' hs'
                rcases List.mem_cons.mp hmem with heq | hmem'
                · have : c' = c₁ ∧ h' = h₁ := by cases heq; exact ⟨rfl, rfl⟩
                  rw [this.1, this.2]
                  have : (candScore tf now current c₁ h₁).score ≤ bs := le_of_not_lt hlt
                  exact le_trans this hbs
                · exact hmax c' cd' h' hmem' hcd' hp' hs'
            · intro hfold
              obtain ⟨hacc', _⟩ := IH2 hfold
              simp at hacc'
      · -- ineligible head
        have hstep := selectStep_eq_of_ineligible tf now current min_s acc c₁ h₁ helig
        rw [hfc, hstep]
        obtain ⟨IH1, IH2⟩ := ih acc
        constructor
        · intro s c hfold
          obtain ⟨hsrc, hge, hmax⟩ := IH1 s c hfold
          refine ⟨?_, hge, ?_⟩
          · rcases hsrc with hacc | ⟨cd, h, hmem, hrest⟩
            · exact Or.inl hacc
            · exact Or.inr ⟨cd, h, List.mem_cons_of_mem _ hmem, hrest⟩
          · intro c' cd' h' hmem hcd' hp' hs'
            rcases List.mem_cons.mp hmem with heq | hmem'
            · exfalso
              have : c' = c₁ ∧ h' = h₁ := by cases heq; exact ⟨rfl, rfl⟩
              exact helig ⟨this.1 ▸ this.2 ▸ hp', this.1 ▸ this.2 ▸ hs'⟩
            · exact hmax c' cd' h' hmem' hcd' hp' hs'
        · intro hfold
          obtain ⟨hacc, hnone⟩ := IH2 hfold
          refine ⟨hacc, ?_⟩
          intro c' cd' h' hmem hcd'
          rcases List.mem_cons.mp hmem with heq | hmem'
          · have : c' = c₁ ∧ h' = h₁ := by cases heq; exact ⟨rfl, rfl⟩
            intro hel
            exact helig ⟨this.1 ▸ this.2 ▸ hel.1, this.1 ▸ this.2 ▸ hel.2⟩
          · exact hnone c' cd' h' hmem' hcd'

/-- C1 (amended): in `try_match_inner` a candidate is eligible exactly
when it has no cooldown, passes the filters, and its score reaches
`min_match_score` of the *initiating user's* phase alone (not of the more
lenient of the two phases); the selected partner is an eligible candidate
of maximal score. -/
theorem selectBest_uses_initiator_min_score (tf : TransFns) (now : ℤ)
    (current : QueueUser) (cands : List (QueueUser × Bool × PairHistory)) :
    (∀ s c, selectBest tf now current cands = some (s, c) →
      (∃ cd h, (c, cd, h) ∈ cands ∧ codeEligible tf now current c cd h
          ∧ s = (candScore tf now current c h).score)
      ∧ (∀ c' cd' h', (c', cd', h') ∈ cands → codeEligible tf now current c' cd' h' →
          (candScore tf now current c' h').score ≤ s))
    ∧ (selectBest tf now current cands = none →
        ∀ c cd h, (c, cd, h) ∈ cands → ¬codeEligible tf now current c cd h) := by
  have hmain := selectFold_spec tf now current (phaseOf now current).min_match_score cands none
  constructor
  · intro s c hsel
    obtain ⟨hsrc, _, hmax⟩ := hmain.1 s c hsel
    constructor
    · rcases hsrc with habs | ⟨cd, h, hmem, hcd, hp, hmin, hscore⟩
      · exact absurd habs (by simp)
      · exact ⟨cd, h, hmem, ⟨hcd, hp, hscore ▸ hmin⟩, hscore⟩
    · intro c' cd' h' hmem helig
      exact hmax c' cd' h' hmem helig.1 helig.2.1 helig.2.2
  · intro hsel c cd h hmem helig
    exact (hmain.2 hsel).2 c cd h hmem helig.1 ⟨helig.2.1, helig.2.2⟩

/-- C1 counterexample: the initiating user is in Strict phase (threshold
0.10) and the only candidate, in Desperate phase, scores 0.0375 — spec-
eligible under `min_score(max_phase) = 0`, with no cooldown — yet the
loop selects nobody, refuting the claimed selection rule. -/
theorem selectBest_ignores_max_phase_cex :
    selectBest tfTrivial 100000000 strictUser [(desperateCand, false, futureHistory)] = none
    ∧ specEligible tfTrivial 100000000 strictUser desperateCand false futureHistory := by
  have hne : ("FR" : String) ≠ "JP" := by decide
  constructor
  · norm_num [selectBest, selectStep, candScore, phaseOf, MatchPhase.from_wait_ms,
      MatchPhase.min_match_score, calculate_score, governingPhase, kinks_overlap, country_match,
      passes_filters, strictUser, desperateCand,
      emptyFilters, futureHistory, tfTrivial, MatchPhase.toU8, age_score, pair_modifier,
      freshness_score, distance_score, belowAgeMin, aboveAgeMax,
      W_COUNTRY, W_AGE, W_KINKS, W_HISTORY, W_FRESHNESS, W_DISTANCE, hne]
  · norm_num [specEligible, specMaxPhase, candScore, phaseOf, MatchPhase.from_wait_ms,
      MatchPhase.min_match_score, calculate_score, governingPhase, kinks_overlap, country_match,
      passes_filters, strictUser, desperateCand,
      emptyFilters, futureHistory, tfTrivial, MatchPhase.toU8, age_score, pair_modifier,
      freshness_score, distance_score, belowAgeMin, aboveAgeMax,
      W_COUNTRY, W_AGE, W_KINKS, W_HISTORY, W_FRESHNESS, W_DISTANCE, hne]

/-- C1 witness: applying the amended theorem to the concrete snapshot
shows the Desperate candidate is not code-eligible for the Strict
initiator. -/
theorem selectBest_uses_initiator_min_score_witness :
    ¬codeEligible tfTrivial 100000000 strictUser desperateCand false futureHistory := by
  have hne : ("FR" : String) ≠ "JP" := by decide
  refine (selectBest_uses_initiator_min_score tfTrivial 100000000 strictUser
    [(desperateCand, false, futureHistory)]).2 ?_ desperateCand false futureHistory (by simp)
  norm_num [selectBest, selectStep, candScore, phaseOf, MatchPhase.from_wait_ms,
    MatchPhase.min_match_score, calculate_score, governingPhase, kinks_overlap, country_match,
    passes_filters, strictUser, desperateCand,
    emptyFilters, futureHistory, tfTrivial, MatchPhase.toU8, age_score, pair_modifier,
    freshness_score, distance_score, belowAgeMin, aboveAgeMax,
    W_COUNTRY, W_AGE, W_KINKS, W_HISTORY, W_FRESHNESS, W_DISTANCE, hne]


theorem from_le2_mod (n : ℕ) : from_le2 (n % 256) (n / 256 % 256) = n % 65536 := by
  unfold from_le2; omega

theorem from_le4_mod (n : ℕ) :
    from_le4 (n % 256) (n / 256 % 256) (n / 65536 % 256) (n / 16777216 % 256)
      = n % 4294967296 := by
  unfold from_le4; omega

theorem readLrrGo_nil : readLrrGo [] = [] := by
  rw [readLrrGo]
  simp

theorem readLrrGo_record (t0 t1 t2 t3 k l0 l1 : ℕ) (L W : List ℕ)
    (hl : from_le2 l0 l1 = L.length) :
    readLrrGo (t0 :: t1 :: t2 :: t3 :: k :: l0 :: l1 :: (L ++ W))
      = ⟨from_le4 t0 t1 t2 t3, k, L⟩ :: readLrrGo W := by
  have hlen : (t0 :: t1 :: t2 :: t3 :: k :: l0 :: l1 :: (L ++ W)).length
      = 7 + (L.length + W.length) := by simp; omega
  rw [readLrrGo]
  rw [if_pos (by rw [hlen]; omega)]
  simp only [List.getD_cons_zero, List.getD_cons_succ]
  rw [hl]
  rw [if_pos (by rw [hlen]; omega)]
  have hdrop7 : ((t0 :: t1 :: t2 :: t3 :: k :: l0 :: l1 :: (L ++ W)).drop 7).take L.length
      = L := by simp [List.take_left]
  have hdropAll : (t0 :: t1 :: t2 :: t3 :: k :: l0 :: l1 :: (L ++ W)).drop (7 + L.length)
      = W := by
    have h : t0 :: t1 :: t2 :: t3 :: k :: l0 :: l1 :: (L ++ W)
        = ([t0, t1, t2, t3, k, l0, l1] ++ L) ++ W := by simp
    rw [h, show 7 + L.length = ([t0, t1, t2, t3, k, l0, l1] ++ L).length by simp; omega]
    exact List.drop_left _ _
  rw [hdrop7, hdropAll]

theorem readLrrGo_write (rs : List LrrRecord)
    (hb : ∀ r ∈ rs, r.rtp_data.length ≤ 65535 ∧ r.track_kind < 256
      ∧ r.relative_timestamp_us < 4294967296) :
    readLrrGo (writeLrrRecords rs) = rs := by
  induction rs with
  | nil => rw [writeLrrRecords, readLrrGo_nil]
  | cons r rest ih =>
    obtain ⟨hlen, hkind, hts⟩ := hb r (List.mem_cons_self r rest)
    have hbrest : ∀ x ∈ rest, x.rtp_data.length ≤ 65535 ∧ x.track_kind < 256
        ∧ x.relative_timestamp_us < 4294967296 :=
      fun x hx => hb x (List.mem_cons_of_mem _ hx)
    have hdata : writeLrrRecords (r :: rest)
        = r.relative_timestamp_us % 256 :: (r.relative_timestamp_us / 256 % 256)
          :: (r.relative_timestamp_us / 65536 % 256)
          :: (r.relative_timestamp_us / 16777216 % 256)
          :: (r.track_kind % 256) :: (r.rtp_data.length % 256)
          :: (r.rtp_data.length / 256 % 256)
          :: (r.rtp_data ++ writeLrrRecords rest) := by
      rw [writeLrrRecords, writeLrrRecord]
      simp [u32_le, u16_le]
    rw [hdata, readLrrGo_record _ _ _ _ _ _ _ _ _
      (by rw [from_le2_mod]; omega), ih hbrest]
    rw [from_le4_mod, Nat.mod_eq_of_lt hts, Nat.mod_eq_of_lt hkind]

/-- C6: LRR round-trip — parsing the bytes the recording task writes
after the 16-byte header returns exactly the recorded records: same
count, same order, same track kinds, byte-identical RTP payloads (and
same relative timestamps), provided each marshalled packet fits in a
`u16` length, the track kind is a `u8` and the timestamp a `u32`. -/
theorem lrr_roundtrip (hdr : List ℕ) (rs : List LrrRecord)
    (hhdr : hdr.length = 16)
    (hb : ∀ r ∈ rs, r.rtp_data.length ≤ 65535 ∧ r.track_kind < 256
      ∧ r.relative_timestamp_us < 4294967296) :
    read_lrr_records (hdr ++ writeLrrRecords rs) = rs := by
  unfold read_lrr_records
  rw [List.drop_append_of_le_length (by omega),
    List.drop_eq_nil_of_le (by omega : hdr.length ≤ 16), List.nil_append]
  exact readLrrGo_write rs hb



theorem u16_le_from_le2 (b0 b1 : ℕ) (h0 : b0 < 256) (h1 : b1 < 256) :
    u16_le (from_le2 b0 b1) = [b0, b1] := by
  simp only [u16_le, from_le2, List.cons.injEq, and_true]
  omega

theorem u32_le_from_le4 (b0 b1 b2 b3 : ℕ) (h0 : b0 < 256) (h1 : b1 < 256)
    (h2 : b2 < 256) (h3 : b3 < 256) :
    u32_le (from_le4 b0 b1 b2 b3) = [b0, b1, b2, b3] := by
  simp only [u32_le, from_le4, List.cons.injEq, and_true]
  omega

theorem readLrrGo_decomp (d : List ℕ) (hball : ∀ b ∈ d, b < 256) :
    ∃ rs rest, d = writeLrrRecords rs ++ rest ∧ readLrrGo d = rs
      ∧ (rest.length < 7 ∨ rest.length < 7 + lrrDeclaredLen rest) := by
  have H : ∀ (n : ℕ) (d : List ℕ), d.length ≤ n → (∀ b ∈ d, b < 256) →
      ∃ rs rest, d = writeLrrRecords rs ++ rest ∧ readLrrGo d = rs
        ∧ (rest.length < 7 ∨ rest.length < 7 + lrrDeclaredLen rest) := by
    intro n
    induction n with
    | zero =>
      intro d hd _
      have hnil : d = [] := List.length_eq_zero.mp (by omega)
      subst hnil
      exact ⟨[], [], by simp [writeLrrRecords], readLrrGo_nil, Or.inl (by simp)⟩
    | succ n ihn =>
      intro d hd hb
      by_cases h7 : 7 ≤ d.length
      · rcases d with _ | ⟨t0, d⟩
        · simp at h7
        rcases d with _ | ⟨t1, d⟩
        · simp at h7
        rcases d with _ | ⟨t2, d⟩
        · simp at h7
        rcases d with _ | ⟨t3, d⟩
        · simp at h7
        rcases d with _ | ⟨k, d⟩
        · simp at h7
        rcases d with _ | ⟨l0, d⟩
        · simp at h7
        rcases d with _ | ⟨l1, tl⟩
        · simp at h7
        have hb0 : t0 < 256 := hb t0 (by simp)
        have hb1 : t1 < 256 := hb t1 (by simp)
        have hb2 : t2 < 256 := hb t2 (by simp)
        have hb3 : t3 < 256 := hb t3 (by simp)
        have hbk : k < 256 := hb k (by simp)
        have hbl0 : l0 < 256 := hb l0 (by simp)
        have hbl1 : l1 < 256 := hb l1 (by simp)
        have htllen : tl.length + 7 ≤ n + 1 := by
          have := hd
          simp at this
          omega
        by_cases hfit : from_le2 l0 l1 ≤ tl.length
        · -- a complete record is available
          obtain ⟨rs, rest, hdec, hread, hpart⟩ :=
            ihn (tl.drop (from_le2 l0 l1))
              (by simp; omega)
              (fun b hbm => hb b (by simp [List.mem_of_mem_drop hbm]))
          refine ⟨⟨from_le4 t0 t1 t2 t3, k, tl.take (from_le2 l0 l1)⟩ :: rs, rest, ?_, ?_, hpart⟩
          · rw [writeLrrRecords, writeLrrRecord]
            simp only []
            rw [u32_le_from_le4 t0 t1 t2 t3 hb0 hb1 hb2 hb3,
              Nat.mod_eq_of_lt hbk,
              show (tl.take (from_le2 l0 l1)).length = from_le2 l0 l1 by
                simp [List.length_take]
                try omega,
              u16_le_from_le2 l0 l1 hbl0 hbl1]
            simp only [List.cons_append, List.nil_append, List.append_assoc]
            rw [← hdec, List.take_append_drop]
          · have htl : tl = tl.take (from_le2 l0 l1) ++ tl.drop (from_le2 l0 l1) :=
              (List.take_append_drop _ tl).symm
            rw [show t0 :: t1 :: t2 :: t3 :: k :: l0 :: l1 :: tl
                = t0 :: t1 :: t2 :: t3 :: k :: l0 :: l1 ::
                  (tl.take (from_le2 l0 l1) ++ tl.drop (from_le2 l0 l1)) by rw [← htl]]
            rw [readLrrGo_record t0 t1 t2 t3 k l0 l1 _ _
              (by simp [List.length_take]
                  try omega)]
            rw [hread]
        · -- truncated payload: stop with the whole suffix as the partial rest
          refine ⟨[], t0 :: t1 :: t2 :: t3 :: k :: l0 :: l1 :: tl, ?_, ?_, ?_⟩
          · simp [writeLrrRecords]
          · rw [readLrrGo]
            rw [if_pos (by simp only [List.length_cons]; omega)]
            simp only [List.getD_cons_zero, List.getD_cons_succ]
            rw [if_neg (by simp only [List.length_cons]; omega)]
          · refine Or.inr ?_
            have hdl : lrrDeclaredLen (t0 :: t1 :: t2 :: t3 :: k :: l0 :: l1 :: tl)
                = from_le2 l0 l1 := by
              simp [lrrDeclaredLen]
            rw [hdl]
            simp
            try omega
      · exact ⟨[], d, by simp [writeLrrRecords], by rw [readLrrGo]; simp [h7],
          Or.inl (by omega)⟩
  exact H d.length d le_rfl hball

/-- C10: the `.lrr` parser is total on arbitrary byte input — it returns
exactly the records of the longest well-formed prefix after byte offset
16, and a trailing partial record (header or payload cut short) is
dropped. -/
theorem read_lrr_records_total (data : List ℕ) (hb : ∀ b ∈ data, b < 256) :
    ∃ rs rest, data.drop 16 = writeLrrRecords rs ++ rest
      ∧ read_lrr_records data = rs
      ∧ (rest.length < 7 ∨ rest.length < 7 + lrrDeclaredLen rest) := by
  have hb' : ∀ b ∈ data.drop 16, b < 256 := fun b hbm => hb b (List.mem_of_mem_drop hbm)
  exact readLrrGo_decomp (data.drop 16) hb'

/-- C6 witness: a two-record sequence (one with payload, one empty)
satisfies the bounds and round-trips. -/
theorem lrr_roundtrip_witness :
    (List.replicate 16 0).length = 16 ∧
      read_lrr_records ((List.replicate 16 0)
          ++ writeLrrRecords [⟨5, 1, [9, 8]⟩, ⟨70000, 2, []⟩])
        = [⟨5, 1, [9, 8]⟩, ⟨70000, 2, []⟩] :=
  ⟨by simp, lrr_roundtrip (List.replicate 16 0) [⟨5, 1, [9, 8]⟩, ⟨70000, 2, []⟩]
    (by simp) (by decide)⟩

/-- C10 witness: a file whose body is a 3-byte partial record header
parses to no records, the partial rest being dropped. -/
theorem read_lrr_records_total_witness :
    (∀ b ∈ List.replicate 16 0 ++ [1, 2, 3], b < 256) ∧
      ∃ rs rest, (List.replicate 16 0 ++ [1, 2, 3]).drop 16 = writeLrrRecords rs ++ rest
        ∧ read_lrr_records (List.replicate 16 0 ++ [1, 2, 3]) = rs
        ∧ (rest.length < 7 ∨ rest.length < 7 + lrrDeclaredLen rest) :=
  ⟨by decide, read_lrr_records_total (List.replicate 16 0 ++ [1, 2, 3]) (by decide)⟩

end Broz
